import Mathlib

/-!
Verification of the segmentation state engine of
`Auto_image_segmentation_v1.py` (class `ImageSegmentationApp`).

Images are rectangular grids of 8-bit RGB pixels, embedded as lists of
rows of `Color` triples.  The mutable application state (numpy arrays
held in object attributes, with Python reference semantics) is embedded
as an explicit heap of image values plus references into it, so that the
in-place slice assignments and the aliasing created by `undo` are
modelled faithfully.
-/

namespace AutoSeg

/-- An RGB pixel: three channel values (each 0..255 for real images). -/
abbrev Color := Nat × Nat × Nat

/-- An image: a list of rows, each row a list of pixels.
Row index `y` first, column index `x` second, as in `image[y, x]`. -/
abbrev Img := List (List Color)

/-- The marker color for classified-as-similar pixels: `[0, 255, 0]`. -/
def greenC : Color := (0, 255, 0)

/-- The sentinel color for classified-as-background pixels: `[255, 255, 255]`. -/
def whiteC : Color := (255, 255, 255)

/-- Number of rows, `shape[0]`. -/
def heightOf (img : Img) : Nat := img.length

/-- Number of columns, `shape[1]` (row 0's length; numpy arrays are
rectangular). -/
def widthOf (img : Img) : Nat := (img.getD 0 []).length

/-- All rows have the row-0 length, as numpy guarantees by construction. -/
def Rect (img : Img) : Prop := ∀ i, i < img.length → (img.getD i []).length = widthOf img

/-- Pixel read `img[y, x]`, with a default for out-of-range indices. -/
def pix (img : Img) (y x : Nat) : Color := (img.getD y []).getD x (0, 0, 0)

/-- Pixel read in a single-channel (grayscale) raster. -/
def pixG (img : List (List Nat)) (y x : Nat) : Nat := (img.getD y []).getD x 0

/-- Map a function over one row, threading the column index. -/
def mapRow (f : Nat → Color → Color) : Nat → List Color → List Color
  | _, [] => []
  | x, p :: ps => f x p :: mapRow f (x + 1) ps

/-- Map a pixel function over an image, threading the row index. -/
def mapRows (f : Nat → Nat → Color → Color) : Nat → Img → Img
  | _, [] => []
  | y, r :: rs => mapRow (f y) 0 r :: mapRows f (y + 1) rs

/-- Map a pixel function (row, column, old value) over a whole image. -/
def mapPixels (f : Nat → Nat → Color → Color) (img : Img) : Img :=
  mapRows f 0 img

theorem mapRow_length (f : Nat → Color → Color) (x : Nat) (r : List Color) :
    (mapRow f x r).length = r.length := by
  induction r generalizing x with
  | nil => rfl
  | cons p ps ih => simp [mapRow, ih]

theorem mapRows_length (f : Nat → Nat → Color → Color) (y : Nat) (m : Img) :
    (mapRows f y m).length = m.length := by
  induction m generalizing y with
  | nil => rfl
  | cons r rs ih => simp [mapRows, ih]

theorem mapRow_getD (f : Nat → Color → Color) (x j : Nat) (r : List Color) (d : Color) :
    (mapRow f x r).getD j d = if j < r.length then f (x + j) (r.getD j d) else d := by
  induction r generalizing x j with
  | nil => simp [mapRow]
  | cons p ps ih =>
      cases j with
      | zero => simp [mapRow]
      | succ j =>
          simp only [mapRow, List.getD_cons_succ, List.length_cons, ih]
          have harith : x + 1 + j = x + (j + 1) := by omega
          by_cases h : j < ps.length
          · simp [h, Nat.succ_lt_succ h, harith]
          · have : ¬ j + 1 < ps.length + 1 := by omega
            simp [h, this]

theorem mapRows_getD (f : Nat → Nat → Color → Color) (y i : Nat) (m : Img) :
    (mapRows f y m).getD i [] =
      if i < m.length then mapRow (f (y + i)) 0 (m.getD i []) else [] := by
  induction m generalizing y i with
  | nil => simp [mapRows]
  | cons r rs ih =>
      cases i with
      | zero => simp [mapRows]
      | succ i =>
          simp only [mapRows, List.getD_cons_succ, List.length_cons, ih]
          have harith : y + 1 + i = y + (i + 1) := by omega
          by_cases h : i < rs.length
          · simp [h, Nat.succ_lt_succ h, harith]
          · have : ¬ i + 1 < rs.length + 1 := by omega
            simp [h, this]

/-- Pointwise description of `mapPixels`. -/
theorem pix_mapPixels (f : Nat → Nat → Color → Color) (m : Img) (y x : Nat) :
    pix (mapPixels f m) y x =
      if y < m.length ∧ x < (m.getD y []).length then f y x (pix m y x) else (0, 0, 0) := by
  unfold pix mapPixels
  rw [mapRows_getD]
  by_cases hy : y < m.length
  · rw [if_pos hy, mapRow_getD]
    by_cases hx : x < (m.getD y []).length
    · simp [hy, hx]
    · simp [hy, hx]
  · simp [hy]

theorem mapPixels_length (f : Nat → Nat → Color → Color) (m : Img) :
    (mapPixels f m).length = m.length := mapRows_length f 0 m

theorem mapPixels_row_length (f : Nat → Nat → Color → Color) (m : Img) (i : Nat) :
    ((mapPixels f m).getD i []).length = (m.getD i []).length := by
  unfold mapPixels
  rw [mapRows_getD]
  by_cases h : i < m.length
  · simp [h, mapRow_length]
  · rw [if_neg h]
    have : m.length ≤ i := Nat.le_of_not_lt h
    rw [List.getD_eq_default _ _ (by simpa using this)]

/-- Extensionality for pixel rasters: equal lengths, equal row lengths and
equal pixels give equal images. -/
theorem img_ext (a b : Img) (hlen : a.length = b.length)
    (hrow : ∀ i, (a.getD i []).length = (b.getD i []).length)
    (hpix : ∀ y x, pix a y x = pix b y x) : a = b := by
  induction a generalizing b with
  | nil => cases b with
      | nil => rfl
      | cons s bs => simp at hlen
  | cons r as ih =>
      cases b with
      | nil => simp at hlen
      | cons s bs =>
          have hr : r = s := by
            have h0 : r.length = s.length := hrow 0
            apply List.ext_getElem h0
            intro j hj hj2
            have := hpix 0 j
            simpa [pix, List.getD_eq_getElem?_getD, List.getElem?_eq_getElem hj,
              List.getElem?_eq_getElem hj2] using this
          have has : as = bs := by
            apply ih bs (by simpa using hlen)
            · intro i; simpa using hrow (i + 1)
            · intro y x; simpa [pix] using hpix (y + 1) x
          rw [hr, has]

/-- `mapPixels` of a composition is composition of `mapPixels`. -/
theorem mapPixels_mapPixels (f g : Nat → Nat → Color → Color) (m : Img) :
    mapPixels f (mapPixels g m) = mapPixels (fun y x p => f y x (g y x p)) m := by
  apply img_ext
  · rw [mapPixels_length, mapPixels_length, mapPixels_length]
  · intro i
    rw [mapPixels_row_length, mapPixels_row_length, mapPixels_row_length]
  · intro y x
    rw [pix_mapPixels, pix_mapPixels, pix_mapPixels,
      mapPixels_length, mapPixels_row_length]
    by_cases h : y < m.length ∧ x < (m.getD y []).length
    · rw [if_pos h, if_pos h, if_pos h]
    · rw [if_neg h, if_neg h]

/-- `mapPixels` with a pointwise-identity function is the identity. -/
theorem mapPixels_id_of_fix (f : Nat → Nat → Color → Color) (m : Img)
    (hf : ∀ y x, f y x (pix m y x) = pix m y x) : mapPixels f m = m := by
  apply img_ext
  · rw [mapPixels_length]
  · intro i
    rw [mapPixels_row_length]
  · intro y x
    rw [pix_mapPixels]
    by_cases h : y < m.length ∧ x < (m.getD y []).length
    · rw [if_pos h, hf]
    · rw [if_neg h]
      unfold pix
      rcases Classical.em (y < m.length) with hy | hy
      · have hx : ¬ x < (m.getD y []).length := fun hx => h ⟨hy, hx⟩
        rw [List.getD_eq_default _ _ (Nat.le_of_not_lt hx)]
      · rw [List.getD_eq_default _ _ (Nat.le_of_not_lt hy),
          List.getD_eq_default _ _ (Nat.zero_le x)]

/-! ## The pixel classifier of `segment_image` (lines 83-92)

`region_pixels` and `self.selected_color` are `uint8` numpy arrays, so
`region_pixels - self.selected_color` wraps each channel modulo 256;
`np.linalg.norm` then takes the Euclidean norm of those wrapped
differences, which is compared with the threshold 300.  Comparing the
(float) norm with 300 is equivalent to comparing the integer sum of
squares with 300² = 90000. -/

/-- One channel of `p - c` in `uint8` arithmetic: `(p - c) mod 256`. -/
def wrapSub (p c : Nat) : Nat := (p % 256 + 256 - c % 256) % 256

/-- Sum of squared wrapped channel differences: the square of the value
`np.linalg.norm(region_pixels - self.selected_color, axis=1)` computes. -/
def wrapDistSq (c p : Color) : Nat :=
  wrapSub p.1 c.1 ^ 2 + wrapSub p.2.1 c.2.1 ^ 2 + wrapSub p.2.2 c.2.2 ^ 2

/-- `labels = distance < threshold` with `threshold = 300`, on the wrapped
differences the code actually computes. -/
def codeMatch (c p : Color) : Bool := wrapDistSq c p < 90000

/-- Modelled from the spec: the true squared Euclidean RGB distance between
a reference color and a pixel ("Euclidean distance in RGB space"), for
comparison with the source's wrapped computation. -/
def euclidDistSq (c p : Color) : Nat :=
  (max p.1 c.1 - min p.1 c.1) ^ 2 + (max p.2.1 c.2.1 - min p.2.1 c.2.1) ^ 2 +
    (max p.2.2 c.2.2 - min p.2.2 c.2.2) ^ 2

/-- Modelled from the spec: match iff Euclidean distance `< 300`. -/
def specMatch (c p : Color) : Bool := euclidDistSq c p < 90000

/-! ## Window arithmetic and the three in-place raster mutations -/

/-- Is `(y, x)` inside the half-open window `[ys, ye) × [xs, xe)`? -/
def inWindow (xs xe ys ye y x : Nat) : Bool :=
  decide (ys ≤ y) && decide (y < ye) && decide (xs ≤ x) && decide (x < xe)

/-- The classified window of `segment_image` overwriting `seg` in place
(lines 75-95): window of size 50 centered on the click, clipped to the
image bounds; inside the window each pixel is recomputed from the *source*
pixel (`region = self.image_rgb[...]`): green when `codeMatch`, white
otherwise; outside the window `seg` is untouched. -/
def classifyImg (src : Img) (c : Color) (x y : Nat) (seg : Img) : Img :=
  let w := widthOf src
  let h := heightOf src
  let xs := x - 25
  let xe := min (x + 25) w
  let ys := y - 25
  let ye := min (y + 25) h
  mapPixels (fun i j p =>
    if inWindow xs xe ys ye i j then
      (if codeMatch c (pix src i j) then greenC else whiteC)
    else p) seg

/-- `remove_mask` (lines 124-136): window of size 20 centered on the click,
clipped; inside it `seg` is overwritten with the source pixels, outside it
is untouched. -/
def eraseImg (src : Img) (x y : Nat) (seg : Img) : Img :=
  let w := widthOf src
  let h := heightOf src
  let xs := x - 10
  let xe := min (x + 10) w
  let ys := y - 10
  let ye := min (y + 10) h
  mapPixels (fun i j p => if inWindow xs xe ys ye i j then pix src i j else p) seg

/-- `reset_white_regions` (lines 104-105): every pixel whose value is
exactly `[255,255,255]` is replaced by the corresponding source pixel. -/
def resetImg (src : Img) (seg : Img) : Img :=
  mapPixels (fun i j p => if p = whiteC then pix src i j else p) seg

/-- OpenCV's fixed-point `RGB2GRAY`: `(R*4899 + G*9617 + B*1868 + 8192) >> 14`
(the rounded 0.299/0.587/0.114 weights). -/
def rgb2gray (p : Color) : Nat :=
  (p.1 * 4899 + p.2.1 * 9617 + p.2.2 * 1868 + 8192) / 16384

/-- `save_green_mask` (lines 144-151): pixels exactly equal to `[0,255,0]`
become white `[255,255,255]`, all others black `[0,0,0]`, and the result is
converted to grayscale. -/
def saveGreenMask (seg : Img) : List (List Nat) :=
  seg.map (fun row => row.map (fun p =>
    rgb2gray (if p = greenC then whiteC else (0, 0, 0))))

/-! ## Application state

Numpy arrays live in an explicit heap (`heap`, indexed by allocation
order); object attributes that hold arrays are references into it.  This
captures Python's reference semantics: `undo` makes `segmented_image`
*alias* the top history snapshot, and the in-place slice assignments of
`segment_image`, `reset_white_regions` and `remove_mask` then write
through that alias.

`image_rgb = none` models the attribute never having been assigned
(`__init__` does not set it), so reading it raises `AttributeError`. -/

structure AppState where
  heap : List Img
  image_rgb : Option Nat
  imageLoaded : Bool
  segmented_image : Option Nat
  selected_color : Option Color
  history : List Nat
  remove_mask_mode : Bool
deriving DecidableEq, Repr

/-- The state `__init__` (lines 12-18) leaves behind: no image, no
segmented image, empty history, remove-mask mode off; the `image_rgb`
attribute is never assigned. -/
def initState : AppState :=
  { heap := [], image_rgb := none, imageLoaded := false,
    segmented_image := none, selected_color := none,
    history := [], remove_mask_mode := false }

/-- Read the array at heap reference `r`. -/
def heapGet (s : AppState) (r : Nat) : Img := s.heap.getD r []

/-- The current WorkingMask contents (`self.segmented_image`). -/
def segContent (s : AppState) : Img :=
  match s.segmented_image with
  | some r => heapGet s r
  | none => []

/-- The current SourceImage contents (`self.image_rgb`). -/
def srcContent (s : AppState) : Img :=
  match s.image_rgb with
  | some r => heapGet s r
  | none => []

/-- The contents of the top (most recent) history snapshot. -/
def topContent (s : AppState) : Img :=
  match s.history.getLast? with
  | some r => heapGet s r
  | none => []

/-- `open_image` with a successfully decoded image (lines 42-50):
`image_rgb` is a fresh array, `segmented_image` a fresh copy of it, and
`history` is reset to a one-element list holding another fresh copy. -/
def openImage (img : Img) (s : AppState) : AppState :=
  let n := s.heap.length
  { heap := s.heap ++ [img, img, img],
    image_rgb := some n,
    imageLoaded := true,
    segmented_image := some (n + 1),
    selected_color := s.selected_color,
    history := [n + 2],
    remove_mask_mode := s.remove_mask_mode }

/-- `segment_image` (lines 68-97): no-op unless an image is loaded and a
color is selected; otherwise append a fresh *copy* of the current
WorkingMask to the history, then overwrite the WorkingMask array in place
with the classified window.  The guard reads `self.image` and
`self.selected_color` only, and `segmented_image`/`image_rgb` are always
set when `image` is (they are assigned together in `open_image`). -/
def segmentImage (x y : Nat) (s : AppState) : AppState :=
  match s.image_rgb, s.selected_color, s.segmented_image with
  | some rImg, some c, some rSeg =>
    if s.imageLoaded then
      let cur := heapGet s rSeg
      let heap1 := s.heap ++ [cur]
      let hist1 := s.history ++ [s.heap.length]
      let src := heapGet s rImg
      { s with
        heap := heap1.set rSeg (classifyImg src c x y cur),
        history := hist1 }
    else s
  | _, _, _ => s

/-- `remove_mask` (lines 124-136): overwrite the clipped window of the
WorkingMask array in place with the source pixels.  (Only reachable from
`on_click` with an image loaded.) -/
def removeMask (x y : Nat) (s : AppState) : AppState :=
  match s.image_rgb, s.segmented_image with
  | some rImg, some rSeg =>
    let src := heapGet s rImg
    { s with heap := s.heap.set rSeg (eraseImg src x y (heapGet s rSeg)) }
  | _, _ => s

/-- `reset_white_regions` (lines 99-107): no-op when `segmented_image` is
`None`; otherwise fold all pure-white pixels back to the source, writing
the WorkingMask array in place. -/
def resetWhiteRegions (s : AppState) : AppState :=
  match s.segmented_image, s.image_rgb with
  | some rSeg, some rImg =>
    { s with heap := s.heap.set rSeg (resetImg (heapGet s rImg) (heapGet s rSeg)) }
  | _, _ => s

/-- `undo` (lines 109-114): when more than one snapshot is present, pop the
top and make `segmented_image` *alias* the new top (no copy is taken). -/
def undo (s : AppState) : AppState :=
  if 1 < s.history.length then
    let hist1 := s.history.dropLast
    { s with history := hist1, segmented_image := some (hist1.getLastD 0) }
  else s

/-- `on_click` (lines 52-66): reading `self.image_rgb` before any load
raises `AttributeError` because `__init__` never assigns the attribute
(the `is None` guard itself performs the read).  With an image loaded the
read succeeds (it is an array, never `None`), and the click either erases
or samples `image_rgb[y, x]` and classifies. -/
def onClick (x y : Nat) (s : AppState) : Except String AppState :=
  match s.image_rgb with
  | none => .error "AttributeError"
  | some rImg =>
    if s.remove_mask_mode then
      .ok (removeMask x y s)
    else
      let c := pix (heapGet s rImg) y x
      .ok (segmentImage x y { s with selected_color := some c })

/-- `save_green_mask` (lines 138-157): `None` (a printed no-op) before any
image is loaded, otherwise the exported binary raster.  The state is
unchanged either way. -/
def saveGreen (s : AppState) : Option (List (List Nat)) :=
  match s.segmented_image with
  | some rSeg => some (saveGreenMask (heapGet s rSeg))
  | none => none

/-- The discrete events the UI shell can deliver to the core. -/
inductive Ev
  | openImg (img : Img)
  | click (x y : Nat)
  | next
  | undoEv
  | toggle
  | save
deriving DecidableEq, Repr

/-- One UI event; only `click` can fail (with `AttributeError`). -/
def step (s : AppState) (e : Ev) : Except String AppState :=
  match e with
  | .openImg img => .ok (openImage img s)
  | .click x y => onClick x y s
  | .next => .ok (resetWhiteRegions s)
  | .undoEv => .ok (undo s)
  | .toggle => .ok { s with remove_mask_mode := !s.remove_mask_mode }
  | .save => .ok s

/-- Run a list of events from a given state. -/
def runFrom (s : AppState) : List Ev → Except String AppState
  | [] => .ok s
  | e :: evs =>
    match step s e with
    | .ok s1 => runFrom s1 evs
    | .error msg => .error msg

/-- Run a list of events from the freshly constructed application. -/
def runEvs (evs : List Ev) : Except String AppState := runFrom initState evs

/-- The WorkingMask contents after a run, when the run succeeds and an
image is loaded. -/
def segAfter (evs : List Ev) : Option Img :=
  match runEvs evs with
  | .ok s => (s.segmented_image).map (fun r => heapGet s r)
  | .error _ => none

/-- The shell only ever delivers decoded rasters, which are rectangular. -/
def GoodEvs (evs : List Ev) : Prop :=
  ∀ img, Ev.openImg img ∈ evs → Rect img

/-- A state is reachable when some sequence of shell events, all feeding
rectangular rasters, produces it. -/
def Reachable (s : AppState) : Prop :=
  ∃ evs, GoodEvs evs ∧ runEvs evs = .ok s

theorem runFrom_append (s : AppState) (evs1 evs2 : List Ev) :
    runFrom s (evs1 ++ evs2) =
      match runFrom s evs1 with
      | .ok s1 => runFrom s1 evs2
      | .error msg => .error msg := by
  induction evs1 generalizing s with
  | nil => simp [runFrom]
  | cons e evs ih =>
      simp only [List.cons_append, runFrom]
      cases step s e with
      | ok s1 => exact ih s1
      | error msg => rfl

/-! ## List helpers for the heap -/

theorem getD_set_self {α : Type} (l : List α) (r : Nat) (v d : α) (h : r < l.length) :
    (l.set r v).getD r d = v := by
  induction l generalizing r with
  | nil => simp at h
  | cons a as ih =>
      cases r with
      | zero => rfl
      | succ r => exact ih r (by simpa using h)

theorem getD_set_ne {α : Type} (l : List α) (r r' : Nat) (v d : α) (h : r ≠ r') :
    (l.set r v).getD r' d = l.getD r' d := by
  induction l generalizing r r' with
  | nil => simp
  | cons a as ih =>
      cases r with
      | zero =>
          cases r' with
          | zero => exact absurd rfl h
          | succ r' => rfl
      | succ r =>
          cases r' with
          | zero => rfl
          | succ r' => exact ih r r' (fun he => h (by rw [he]))

theorem getD_append_lt {α : Type} (l1 l2 : List α) (r : Nat) (d : α) (h : r < l1.length) :
    (l1 ++ l2).getD r d = l1.getD r d := by
  induction l1 generalizing r with
  | nil => simp at h
  | cons a as ih =>
      cases r with
      | zero => rfl
      | succ r => exact ih r (by simpa using h)

theorem getD_append_add {α : Type} (l1 l2 : List α) (i : Nat) (d : α) :
    (l1 ++ l2).getD (l1.length + i) d = l2.getD i d := by
  induction l1 with
  | nil => simp
  | cons a as ih => simpa [Nat.succ_add] using ih

theorem getLastD_mem {α : Type} (l : List α) (d : α) (h : l ≠ []) : l.getLastD d ∈ l := by
  induction l with
  | nil => exact absurd rfl h
  | cons a as ih =>
      cases as with
      | nil => simp [List.getLastD]
      | cons b bs =>
          have hmem := ih (by simp)
          simp [List.getLastD] at hmem ⊢

theorem getLastD_concat {α : Type} (l : List α) (a d : α) :
    (l ++ [a]).getLastD d = a := by
  induction l with
  | nil => rfl
  | cons b bs ih =>
      cases bs with
      | nil => rfl
      | cons c cs =>
          simp [List.getLastD] at ih ⊢

theorem getLast?_concat_eq {α : Type} (l : List α) (a : α) :
    (l ++ [a]).getLast? = some a := by
  induction l with
  | nil => rfl
  | cons b bs ih =>
      cases bs with
      | nil => rfl
      | cons c cs => simpa using ih

/-! ## The reachability invariant -/

/-- Two rasters have identical dimensions. -/
def dimsEq (a b : Img) : Prop :=
  a.length = b.length ∧ ∀ i, (a.getD i []).length = (b.getD i []).length

theorem dimsEq_refl (a : Img) : dimsEq a a := ⟨rfl, fun _ => rfl⟩

theorem dimsEq_trans {a b c : Img} (h1 : dimsEq a b) (h2 : dimsEq b c) : dimsEq a c :=
  ⟨h1.1.trans h2.1, fun i => (h1.2 i).trans (h2.2 i)⟩

theorem mapPixels_dimsEq (f : Nat → Nat → Color → Color) (m : Img) :
    dimsEq (mapPixels f m) m :=
  ⟨mapPixels_length f m, fun i => mapPixels_row_length f m i⟩

/-- Structural invariant of every reachable application state: the
attribute flags agree, all references point into the heap, the source
array is distinct from the working mask and from every history snapshot,
all snapshots and the mask share the source's dimensions, the history is
non-empty once an image is loaded, and while the history holds a single
snapshot that snapshot either *is* the working mask (post-undo aliasing)
or both still equal the source image. -/
def INV (s : AppState) : Prop :=
  (s.image_rgb.isSome = s.imageLoaded) ∧
  (s.segmented_image.isSome = s.imageLoaded) ∧
  (s.imageLoaded = false → s.history = []) ∧
  (∀ rImg rSeg, s.image_rgb = some rImg → s.segmented_image = some rSeg →
    rImg ≠ rSeg ∧ rImg < s.heap.length ∧ rSeg < s.heap.length ∧
    s.history ≠ [] ∧
    (∀ r ∈ s.history, r < s.heap.length ∧ r ≠ rImg ∧
      dimsEq (heapGet s r) (heapGet s rImg)) ∧
    Rect (heapGet s rImg) ∧
    dimsEq (heapGet s rSeg) (heapGet s rImg) ∧
    (∀ rTop, s.history = [rTop] →
      rTop = rSeg ∨ (heapGet s rSeg = heapGet s rImg ∧
        heapGet s rTop = heapGet s rImg)))

theorem INV_init : INV initState := by
  refine ⟨rfl, rfl, fun _ => rfl, ?_⟩
  intro rImg rSeg h1 _
  simp [initState] at h1

theorem resetImg_self (src : Img) : resetImg src src = src := by
  unfold resetImg
  exact mapPixels_id_of_fix _ _ (fun y x => by
    by_cases h : pix src y x = whiteC <;> simp [h])

theorem eraseImg_self (src : Img) (x y : Nat) : eraseImg src x y src = src := by
  unfold eraseImg
  exact mapPixels_id_of_fix _ _ (fun i j => by
    by_cases h : inWindow (x - 10) (min (x + 10) (widthOf src)) (y - 10)
      (min (y + 10) (heightOf src)) i j <;> simp [h])

theorem classifyImg_dimsEq (src : Img) (c : Color) (x y : Nat) (seg : Img) :
    dimsEq (classifyImg src c x y seg) seg := mapPixels_dimsEq _ _

theorem eraseImg_dimsEq (src : Img) (x y : Nat) (seg : Img) :
    dimsEq (eraseImg src x y seg) seg := mapPixels_dimsEq _ _

theorem resetImg_dimsEq (src : Img) (seg : Img) :
    dimsEq (resetImg src seg) seg := mapPixels_dimsEq _ _

theorem mem_of_mem_dropLast {α : Type} {a : α} {l : List α}
    (h : a ∈ l.dropLast) : a ∈ l := by
  induction l with
  | nil => simp at h
  | cons b bs ih =>
      cases bs with
      | nil => simp at h
      | cons c cs =>
          rw [List.dropLast_cons₂] at h
          rcases List.mem_cons.mp h with h1 | h1
          · exact h1 ▸ List.mem_cons_self _ _
          · exact List.mem_cons_of_mem _ (ih h1)

/-- Writing a dimension-preserving update through the `segmented_image`
reference (as `reset_white_regions` and `remove_mask` do) preserves the
invariant, provided the update fixes the source image. -/
theorem INV_set_seg (s : AppState) (hInv : INV s) (rImg rSeg : Nat)
    (hI : s.image_rgb = some rImg) (hS : s.segmented_image = some rSeg)
    (newImg : Img)
    (hdims : dimsEq newImg (heapGet s rSeg))
    (hfix : heapGet s rSeg = heapGet s rImg → newImg = heapGet s rImg) :
    INV { s with heap := s.heap.set rSeg newImg } := by
  obtain ⟨hf1, hf2, hf3, hmain⟩ := hInv
  obtain ⟨hne, hImg, hSeg, hhist, hmem, hrect, hsd, hone⟩ := hmain rImg rSeg hI hS
  refine ⟨hf1, hf2, hf3, ?_⟩
  intro rI rS hI2 hS2
  rw [hI] at hI2; rw [hS] at hS2
  injection hI2 with hI2; injection hS2 with hS2
  subst hI2; subst hS2
  have hGetImg : heapGet { s with heap := s.heap.set rSeg newImg } rImg
      = heapGet s rImg := getD_set_ne _ _ _ _ _ (Ne.symm hne)
  have hGetSeg : heapGet { s with heap := s.heap.set rSeg newImg } rSeg
      = newImg := getD_set_self _ _ _ _ hSeg
  have hGetOther : ∀ r, r ≠ rSeg →
      heapGet { s with heap := s.heap.set rSeg newImg } r = heapGet s r :=
    fun r hr => getD_set_ne _ _ _ _ _ (Ne.symm hr)
  refine ⟨hne, by simpa using hImg, by simpa using hSeg, hhist, ?_, ?_, ?_, ?_⟩
  · intro r hr
    obtain ⟨hrlen, hrni, hrdims⟩ := hmem r hr
    refine ⟨by simpa using hrlen, hrni, ?_⟩
    rw [hGetImg]
    by_cases hrs : r = rSeg
    · rw [hrs, hGetSeg]
      exact dimsEq_trans hdims hsd
    · rw [hGetOther r hrs]
      exact hrdims
  · rw [hGetImg]; exact hrect
  · rw [hGetImg, hGetSeg]
    exact dimsEq_trans hdims hsd
  · intro rTop htop
    rcases hone rTop htop with h1 | ⟨hcs, hct⟩
    · exact Or.inl h1
    · by_cases hts : rTop = rSeg
      · exact Or.inl hts
      · refine Or.inr ⟨?_, ?_⟩
        · rw [hGetImg, hGetSeg]
          exact hfix hcs
        · rw [hGetImg, hGetOther rTop hts]
          exact hct

theorem INV_reset (s : AppState) (hInv : INV s) : INV (resetWhiteRegions s) := by
  unfold resetWhiteRegions
  split
  case _ rSeg rImg hS hI =>
    exact INV_set_seg s hInv rImg rSeg hI hS _ (resetImg_dimsEq _ _)
      (fun hcs => by rw [hcs, resetImg_self])
  case _ => exact hInv

theorem INV_remove (x y : Nat) (s : AppState) (hInv : INV s) :
    INV (removeMask x y s) := by
  unfold removeMask
  split
  case _ rImg rSeg hI hS =>
    exact INV_set_seg s hInv rImg rSeg hI hS _ (eraseImg_dimsEq _ _ _ _)
      (fun hcs => by rw [hcs, eraseImg_self])
  case _ => exact hInv

theorem INV_open (img : Img) (s : AppState) (hR : Rect img) :
    INV (openImage img s) := by
  refine ⟨rfl, rfl, by intro hc; simp [openImage] at hc, ?_⟩
  intro rI rS hI hS
  have hrI : rI = s.heap.length := by
    have : some s.heap.length = some rI := hI
    injection this with h; exact h.symm
  have hrS : rS = s.heap.length + 1 := by
    have : some (s.heap.length + 1) = some rS := hS
    injection this with h; exact h.symm
  subst hrI; subst hrS
  have hg0 : heapGet (openImage img s) s.heap.length = img := by
    show (s.heap ++ [img, img, img]).getD (s.heap.length) [] = img
    have := getD_append_add s.heap [img, img, img] 0 ([] : Img)
    simpa using this
  have hg1 : heapGet (openImage img s) (s.heap.length + 1) = img := by
    show (s.heap ++ [img, img, img]).getD (s.heap.length + 1) [] = img
    exact getD_append_add s.heap [img, img, img] 1 ([] : Img)
  have hg2 : heapGet (openImage img s) (s.heap.length + 2) = img := by
    show (s.heap ++ [img, img, img]).getD (s.heap.length + 2) [] = img
    exact getD_append_add s.heap [img, img, img] 2 ([] : Img)
  have hlen : (openImage img s).heap.length = s.heap.length + 3 := by
    simp [openImage]
  refine ⟨by omega, by omega, by omega, by simp [openImage], ?_, ?_, ?_, ?_⟩
  · intro r hr
    have hr2 : r = s.heap.length + 2 := by
      simpa [openImage] using hr
    subst hr2
    exact ⟨by omega, by omega, by rw [hg2, hg0]; exact dimsEq_refl img⟩
  · rw [hg0]; exact hR
  · rw [hg1, hg0]; exact dimsEq_refl img
  · intro rTop htop
    have hr2 : rTop = s.heap.length + 2 := by
      have : ([s.heap.length + 2] : List Nat) = [rTop] := htop
      injection this with h _; exact h.symm
    subst hr2
    refine Or.inr ⟨?_, ?_⟩
    · rw [hg1, hg0]
    · rw [hg2, hg0]

theorem INV_undo (s : AppState) (hInv : INV s) : INV (undo s) := by
  unfold undo
  by_cases h : 1 < s.history.length
  · rw [if_pos h]
    dsimp only
    obtain ⟨hf1, hf2, hf3, hmain⟩ := hInv
    have hloaded : s.imageLoaded = true := by
      by_contra hc
      have hc2 : s.imageLoaded = false := by
        cases hx : s.imageLoaded
        · rfl
        · exact absurd hx hc
      rw [hf3 hc2] at h
      simp at h
    obtain ⟨rImg, hI⟩ : ∃ r, s.image_rgb = some r := by
      rcases hx : s.image_rgb with _ | r
      · rw [hx] at hf1; rw [hloaded] at hf1; simp at hf1
      · exact ⟨r, rfl⟩
    obtain ⟨rSeg, hS⟩ : ∃ r, s.segmented_image = some r := by
      rcases hx : s.segmented_image with _ | r
      · rw [hx] at hf2; rw [hloaded] at hf2; simp at hf2
      · exact ⟨r, rfl⟩
    obtain ⟨hne, hImg, hSeg, hhist, hmem, hrect, hsd, hone⟩ := hmain rImg rSeg hI hS
    have hdne : s.history.dropLast ≠ [] := by
      have : s.history.dropLast.length = s.history.length - 1 := List.length_dropLast _
      intro hc
      rw [hc] at this
      simp at this
      omega
    have hTmem : s.history.dropLast.getLastD 0 ∈ s.history :=
      mem_of_mem_dropLast (getLastD_mem _ _ hdne)
    obtain ⟨hTlen, hTni, hTdims⟩ := hmem _ hTmem
    refine ⟨hf1, by simpa using hloaded.symm, ?_, ?_⟩
    · intro hc
      rw [hloaded] at hc
      simp at hc
    · intro rI rS hI2 hS2
      have hrI : rI = rImg := by
        rw [hI] at hI2; injection hI2 with h2; exact h2.symm
      have hrS : rS = s.history.dropLast.getLastD 0 := by
        injection hS2 with h2; exact h2.symm
      subst hrI; subst hrS
      refine ⟨Ne.symm hTni, hImg, hTlen, hdne, ?_, hrect, hTdims, ?_⟩
      · intro r hr
        exact hmem r (mem_of_mem_dropLast hr)
      · intro rTop htop
        left
        dsimp only at htop
        rw [htop]
        simp [List.getLastD]
  · rw [if_neg h]
    exact hInv

theorem INV_segment (x y : Nat) (s : AppState) (hInv : INV s) :
    INV (segmentImage x y s) := by
  unfold segmentImage
  split
  case _ rImg c rSeg hI hc hS =>
    by_cases hL : s.imageLoaded = true
    · rw [if_pos hL]
      dsimp only
      obtain ⟨hf1, hf2, hf3, hmain⟩ := hInv
      obtain ⟨hne, hImg, hSeg, hhist, hmem, hrect, hsd, hone⟩ := hmain rImg rSeg hI hS
      have hlen1 : (s.heap ++ [s.heap.getD rSeg []]).length = s.heap.length + 1 := by simp
      have hGetImg :
          ((s.heap ++ [s.heap.getD rSeg []]).set rSeg
            (classifyImg (s.heap.getD rImg []) c x y (s.heap.getD rSeg []))).getD rImg []
          = heapGet s rImg := by
        rw [getD_set_ne _ _ _ _ _ (Ne.symm hne), getD_append_lt _ _ _ _ hImg]
        rfl
      have hGetSeg :
          ((s.heap ++ [s.heap.getD rSeg []]).set rSeg
            (classifyImg (s.heap.getD rImg []) c x y (s.heap.getD rSeg []))).getD rSeg []
          = classifyImg (heapGet s rImg) c x y (heapGet s rSeg) :=
        getD_set_self _ _ _ _ (by omega)
      have hGetN :
          ((s.heap ++ [s.heap.getD rSeg []]).set rSeg
            (classifyImg (s.heap.getD rImg []) c x y (s.heap.getD rSeg []))).getD s.heap.length []
          = heapGet s rSeg := by
        rw [getD_set_ne _ _ _ _ _ (by omega)]
        have h0 := getD_append_add s.heap [s.heap.getD rSeg []] 0 ([] : Img)
        rw [Nat.add_zero] at h0
        rw [h0]
        rfl
      have hGetOld : ∀ r, r < s.heap.length → r ≠ rSeg →
          ((s.heap ++ [s.heap.getD rSeg []]).set rSeg
            (classifyImg (s.heap.getD rImg []) c x y (s.heap.getD rSeg []))).getD r []
          = heapGet s r := by
        intro r h1 h2
        rw [getD_set_ne _ _ _ _ _ (Ne.symm h2), getD_append_lt _ _ _ _ h1]
        rfl
      refine ⟨hf1, hf2, ?_, ?_⟩
      · intro hcon
        rw [hL] at hcon
        exact absurd hcon (by simp)
      · intro rI rS hI2 hS2
        dsimp only at hI2 hS2
        have hrI : rI = rImg := by
          rw [hI] at hI2; injection hI2 with h2; exact h2.symm
        have hrS : rS = rSeg := by
          rw [hS] at hS2; injection hS2 with h2; exact h2.symm
        subst rI; subst rS
        simp only [heapGet]
        refine ⟨hne, ?_, ?_, by simp, ?_, ?_, ?_, ?_⟩
        · rw [List.length_set, hlen1]; omega
        · rw [List.length_set, hlen1]; omega
        · intro r hr
          rcases List.mem_append.mp hr with hr1 | hr1
          · obtain ⟨h1, h2, h3⟩ := hmem r hr1
            refine ⟨?_, h2, ?_⟩
            · rw [List.length_set, hlen1]; omega
            · rw [hGetImg]
              by_cases hrs : r = rSeg
              · rw [hrs, hGetSeg]
                exact dimsEq_trans (classifyImg_dimsEq _ _ _ _ _) hsd
              · rw [hGetOld r h1 hrs]
                exact h3
          · have hr2 : r = s.heap.length := by simpa using hr1
            subst hr2
            refine ⟨?_, by omega, ?_⟩
            · rw [List.length_set, hlen1]; omega
            · rw [hGetImg, hGetN]
              exact hsd
        · rw [hGetImg]
          exact hrect
        · rw [hGetImg, hGetSeg]
          exact dimsEq_trans (classifyImg_dimsEq _ _ _ _ _) hsd
        · intro rTop htop
          have hlen3 := congrArg List.length htop
          simp at hlen3
          exact absurd hlen3 hhist
    · rw [if_neg hL]
      exact hInv
  case _ => exact hInv

theorem INV_onClick (x y : Nat) (s s' : AppState) (hInv : INV s)
    (h : onClick x y s = .ok s') : INV s' := by
  obtain ⟨heap, irgb, load, seg, sel, hist, mode⟩ := s
  unfold onClick at h
  rcases irgb with _ | rImg
  · exact absurd h (by simp)
  · dsimp only at h
    by_cases hm : mode = true
    · rw [if_pos hm] at h
      injection h with h
      rw [← h]
      exact INV_remove x y _ hInv
    · rw [if_neg hm] at h
      injection h with h
      rw [← h]
      exact INV_segment x y _ hInv


theorem INV_step (s : AppState) (e : Ev) (s' : AppState) (hInv : INV s)
    (hgood : ∀ img, e = Ev.openImg img → Rect img) (h : step s e = .ok s') :
    INV s' := by
  cases e with
  | openImg img =>
      injection h with h
      rw [← h]
      exact INV_open img s (hgood img rfl)
  | click x y => exact INV_onClick x y s s' hInv h
  | next =>
      injection h with h
      rw [← h]
      exact INV_reset s hInv
  | undoEv =>
      injection h with h
      rw [← h]
      exact INV_undo s hInv
  | toggle =>
      injection h with h
      rw [← h]
      exact hInv
  | save =>
      injection h with h
      rw [← h]
      exact hInv

theorem INV_runFrom (evs : List Ev) (s s' : AppState) (hInv : INV s)
    (hgood : ∀ img, Ev.openImg img ∈ evs → Rect img)
    (h : runFrom s evs = .ok s') : INV s' := by
  induction evs generalizing s with
  | nil =>
      unfold runFrom at h
      injection h with h
      rw [← h]
      exact hInv
  | cons e evs ih =>
      unfold runFrom at h
      cases hstep : step s e with
      | ok s1 =>
          rw [hstep] at h
          dsimp only at h
          refine ih s1 ?_ ?_ h
          · exact INV_step s e s1 hInv
              (fun img he => hgood img (he ▸ List.mem_cons_self _ _)) hstep
          · exact fun img hm => hgood img (List.mem_cons_of_mem _ hm)
      | error msg =>
          rw [hstep] at h
          dsimp only at h
          exact absurd h (by simp)

/-- Every reachable state satisfies the structural invariant. -/
theorem INV_reachable (s : AppState) (h : Reachable s) : INV s := by
  obtain ⟨evs, hgood, hrun⟩ := h
  exact INV_runFrom evs initState s INV_init hgood hrun

/-! ## Trace characterization for classify-click / undo sequences -/

/-- The WorkingMask transformation of one classify-mode click at `(x, y)`:
sample `image_rgb[y, x]`, then classify the 50-window around the click. -/
def clickStep (img : Img) (p : Nat × Nat) (seg : Img) : Img :=
  classifyImg img (pix img p.2 p.1) p.1 p.2 seg

/-- The masks before each click of a classify-click run starting from
`cur`: `[M_0, ..., M_{N-1}]`. -/
def snaps (img : Img) : List (Nat × Nat) → Img → List Img
  | [], _ => []
  | p :: ps, cur => cur :: snaps img ps (clickStep img p cur)

/-- The mask after a whole classify-click run starting from `cur`. -/
def applyClicks (img : Img) : List (Nat × Nat) → Img → Img
  | [], cur => cur
  | p :: ps, cur => applyClicks img ps (clickStep img p cur)

/-- The WorkingMask after classification click `0..N` when the clicks `ps`
are applied to a freshly loaded `img`: entry `k` is the mask right after
the `k`-th classification. -/
def masksList (img : Img) (ps : List (Nat × Nat)) : List Img :=
  snaps img ps img ++ [applyClicks img ps img]

/-- The classify-mode click events for a list of points. -/
def clickEvs (ps : List (Nat × Nat)) : List Ev := ps.map (fun p => Ev.click p.1 p.2)

/-- `k` undo events. -/
def undoN (k : Nat) : List Ev := List.replicate k Ev.undoEv

/-- The selected color after a run of clicks. -/
def selAfter (sel : Option Color) (img : Img) : List (Nat × Nat) → Option Color
  | [] => sel
  | p :: ps => selAfter (some (pix img p.2 p.1)) img ps

/-- Shape of the application state during a load / classify-click /
undo session: `image_rgb` at heap slot 0, the WorkingMask at slot 1
(until an undo redirects it), the initial history snapshot at slot 2 and
the pushed pre-click snapshots `hs` at slots `3, 4, ...`; `k` counts the
undos performed so far. -/
def phaseU (img cur : Img) (hs : List Img) (sel : Option Color) (k : Nat) : AppState :=
  { heap := [img, cur, img] ++ hs,
    image_rgb := some 0,
    imageLoaded := true,
    segmented_image := some (if k = 0 then 1 else hs.length + 2 - k),
    selected_color := sel,
    history := List.range' 2 (hs.length + 1 - k),
    remove_mask_mode := false }

theorem snaps_length (img : Img) (ps : List (Nat × Nat)) (cur : Img) :
    (snaps img ps cur).length = ps.length := by
  induction ps generalizing cur with
  | nil => rfl
  | cons p ps ih => simp [snaps, ih]

theorem openImage_init (img : Img) :
    openImage img initState = phaseU img img [] none 0 := rfl

theorem range'_two_concat (n : Nat) :
    List.range' 2 (n + 1) = List.range' 2 n ++ [n + 2] := by
  have h := @List.range'_concat 1 2 n
  simpa [Nat.add_comm] using h

theorem step_click_phase (img cur : Img) (hs : List Img) (sel : Option Color)
    (x y : Nat) :
    step (phaseU img cur hs sel 0) (Ev.click x y) =
      .ok (phaseU img (clickStep img (x, y) cur) (hs ++ [cur])
        (some (pix img y x)) 0) := by
  show Except.ok _ = _
  unfold phaseU clickStep
  simp only [segmentImage, phaseU, heapGet]
  simp only [if_true]
  congr 1
  simp only [AppState.mk.injEq, and_true, true_and]
  refine ⟨rfl, rfl, ?_⟩
  have h1 : ([img, cur, img] ++ hs).length = hs.length + 3 := by simp
  have h2 : (hs ++ [cur]).length + 1 - 0 = hs.length + 1 + 1 := by simp
  rw [h1, h2, Nat.sub_zero]
  exact (range'_two_concat (hs.length + 1)).symm

theorem runFrom_clicks (img : Img) (ps : List (Nat × Nat)) (cur : Img)
    (hs : List Img) (sel : Option Color) :
    runFrom (phaseU img cur hs sel 0) (clickEvs ps) =
      .ok (phaseU img (applyClicks img ps cur) (hs ++ snaps img ps cur)
        (selAfter sel img ps) 0) := by
  induction ps generalizing cur hs sel with
  | nil => simp [clickEvs, runFrom, snaps, applyClicks, selAfter]
  | cons p ps ih =>
      show (match step (phaseU img cur hs sel 0) (Ev.click p.1 p.2) with
            | .ok s1 => runFrom s1 (clickEvs ps)
            | .error msg => .error msg) = _
      rw [step_click_phase img cur hs sel p.1 p.2]
      show runFrom (phaseU img (clickStep img (p.1, p.2) cur) (hs ++ [cur])
        (some (pix img p.2 p.1)) 0) (clickEvs ps) = _
      rw [ih, List.append_assoc]
      rfl

theorem getLastD_range' (m : Nat) (hm : 1 ≤ m) :
    (List.range' 2 m).getLastD 0 = m + 1 := by
  obtain ⟨m1, rfl⟩ : ∃ m1, m = m1 + 1 := ⟨m - 1, by omega⟩
  rw [range'_two_concat, getLastD_concat]

theorem step_undo_phase (img cur : Img) (hs : List Img) (sel : Option Color)
    (j : Nat) (hj : j < hs.length) :
    step (phaseU img cur hs sel j) Ev.undoEv = .ok (phaseU img cur hs sel (j + 1)) := by
  have e1 : List.range' 2 (hs.length + 1 - j)
      = List.range' 2 (hs.length - j) ++ [hs.length - j + 2] := by
    rw [show hs.length + 1 - j = (hs.length - j) + 1 by omega, range'_two_concat]
  show Except.ok (undo _) = _
  unfold undo phaseU
  dsimp only
  rw [if_pos (by rw [e1]; simp; omega)]
  congr 1
  simp only [AppState.mk.injEq, and_true, true_and]
  constructor
  · rw [e1, List.dropLast_concat]
    rw [getLastD_range' (hs.length - j) (by omega)]
    rw [if_neg (Nat.succ_ne_zero j)]
    congr 1
    omega
  · rw [e1, List.dropLast_concat]
    congr 1
    omega

theorem step_undo_noop (img cur : Img) (hs : List Img) (sel : Option Color) :
    step (phaseU img cur hs sel hs.length) Ev.undoEv
      = .ok (phaseU img cur hs sel hs.length) := by
  show Except.ok (undo _) = _
  unfold undo
  rw [if_neg]
  show ¬ 1 < (List.range' 2 (hs.length + 1 - hs.length)).length
  simp

theorem runFrom_undos (img cur : Img) (hs : List Img) (sel : Option Color)
    (j k : Nat) (hjk : j + k ≤ hs.length) :
    runFrom (phaseU img cur hs sel j) (undoN k) = .ok (phaseU img cur hs sel (j + k)) := by
  induction k generalizing j with
  | zero => rfl
  | succ k ih =>
      show (match step (phaseU img cur hs sel j) Ev.undoEv with
            | .ok s1 => runFrom s1 (undoN k)
            | .error msg => .error msg) = _
      rw [step_undo_phase img cur hs sel j (by omega)]
      show runFrom (phaseU img cur hs sel (j + 1)) (undoN k) = _
      rw [ih (j + 1) (by omega)]
      rw [show j + 1 + k = j + (k + 1) by omega]

theorem getD_in_range {α : Type} (l : List α) (n : Nat) (d1 d2 : α)
    (h : n < l.length) : l.getD n d1 = l.getD n d2 := by
  induction l generalizing n with
  | nil => simp at h
  | cons a as ih =>
      cases n with
      | zero => rfl
      | succ n => exact ih n (by simpa using h)

theorem segContent_phaseU_eq (img : Img) (ps : List (Nat × Nat))
    (sel : Option Color) (k : Nat) (hk1 : 1 ≤ k) (hk : k ≤ ps.length) :
    segContent (phaseU img (applyClicks img ps img) (snaps img ps img) sel k)
      = (masksList img ps).getD (ps.length - 1 - k) img := by
  have hSlen : (snaps img ps img).length = ps.length := snaps_length img ps img
  have hk0 : k ≠ 0 := by omega
  show heapGet _ (if k = 0 then 1 else (snaps img ps img).length + 2 - k)
    = (masksList img ps).getD (ps.length - 1 - k) img
  rw [if_neg hk0, hSlen]
  by_cases hkN : k = ps.length
  · subst hkN
    rw [show ps.length + 2 - ps.length = 2 by omega]
    have hidx : ps.length - 1 - ps.length = 0 := by omega
    rw [hidx]
    cases ps with
    | nil => simp at hk1
    | cons p ps1 => rfl
  · have hidx : ps.length + 2 - k = (ps.length - 1 - k) + 3 := by omega
    rw [hidx]
    show (img :: applyClicks img ps img :: img :: snaps img ps img).getD
        ((ps.length - 1 - k) + 3) [] = _
    rw [List.getD_cons_succ, List.getD_cons_succ, List.getD_cons_succ]
    unfold masksList
    have hin : ps.length - 1 - k < (snaps img ps img).length := by omega
    rw [getD_append_lt _ _ _ _ hin]
    exact getD_in_range _ _ _ _ hin

/-! ## Pointwise helpers for the claim proofs -/

theorem pix_out_of_range (m : Img) (i j : Nat)
    (h : ¬ (i < m.length ∧ j < (m.getD i []).length)) : pix m i j = (0, 0, 0) := by
  unfold pix
  rcases Classical.em (i < m.length) with hy | hy
  · have hx : ¬ j < (m.getD i []).length := fun hx => h ⟨hy, hx⟩
    rw [List.getD_eq_default _ _ (Nat.le_of_not_lt hx)]
  · rw [List.getD_eq_default _ _ (Nat.le_of_not_lt hy),
      List.getD_eq_default _ _ (Nat.zero_le j)]

theorem mapPixels_congr (f g : Nat → Nat → Color → Color) (m : Img)
    (h : ∀ y x p, f y x p = g y x p) : mapPixels f m = mapPixels g m := by
  apply img_ext
  · rw [mapPixels_length, mapPixels_length]
  · intro i
    rw [mapPixels_row_length, mapPixels_row_length]
  · intro y x
    rw [pix_mapPixels, pix_mapPixels, h]

/-- `reset_white_regions` is idempotent at the raster level. -/
theorem resetImg_idem (src cur : Img) :
    resetImg src (resetImg src cur) = resetImg src cur := by
  unfold resetImg
  rw [mapPixels_mapPixels]
  apply mapPixels_congr
  intro y x p
  by_cases hp : p = whiteC
  · rw [if_pos hp]
    by_cases hq : pix src y x = whiteC
    · rw [if_pos hq, hq]
    · rw [if_neg hq]
  · rw [if_neg hp, if_neg hp]

theorem rgb2gray_white : rgb2gray whiteC = 255 := rfl

theorem rgb2gray_black : rgb2gray (0, 0, 0) = 0 := rfl

/-- Row-level description of the export mapping. -/
theorem saveRow_getD (r : List Color) (j : Nat) :
    (r.map (fun p => rgb2gray (if p = greenC then whiteC else (0, 0, 0)))).getD j 0
      = if r.getD j (0, 0, 0) = greenC then 255 else 0 := by
  induction r generalizing j with
  | nil =>
      rw [List.map_nil, List.getD_eq_default _ _ (Nat.zero_le j),
        List.getD_eq_default _ _ (Nat.zero_le j), if_neg (by decide)]
  | cons p ps ih =>
      cases j with
      | zero =>
          rw [List.map_cons, List.getD_cons_zero, List.getD_cons_zero]
          by_cases hp : p = greenC
          · rw [hp, if_pos rfl, if_pos rfl]
            rfl
          · rw [if_neg hp, if_neg hp]
            rfl
      | succ j =>
          rw [List.map_cons, List.getD_cons_succ, List.getD_cons_succ]
          exact ih j

/-- Pointwise description of the exported binary mask. -/
theorem pixG_saveGreenMask (mask : Img) (i j : Nat) :
    pixG (saveGreenMask mask) i j = if pix mask i j = greenC then 255 else 0 := by
  unfold saveGreenMask pixG pix
  induction mask generalizing i with
  | nil =>
      have h1 : (([] : Img).getD i []) = [] := List.getD_eq_default _ _ (Nat.zero_le i)
      have h2 : (([] : List (List Nat)).getD i []) = [] := List.getD_eq_default _ _ (Nat.zero_le i)
      rw [List.map_nil, h2, h1,
        List.getD_eq_default _ _ (Nat.zero_le j),
        List.getD_eq_default _ _ (Nat.zero_le j), if_neg (by decide)]
  | cons r rs ih =>
      cases i with
      | zero =>
          rw [List.map_cons, List.getD_cons_zero, List.getD_cons_zero]
          exact saveRow_getD r j
      | succ i =>
          rw [List.map_cons, List.getD_cons_succ, List.getD_cons_succ]
          exact ih i

theorem saveGreenMask_length (mask : Img) :
    (saveGreenMask mask).length = mask.length := by
  unfold saveGreenMask
  rw [List.length_map]

theorem saveGreenMask_row_length (mask : Img) (i : Nat) :
    ((saveGreenMask mask).getD i []).length = (mask.getD i []).length := by
  unfold saveGreenMask
  induction mask generalizing i with
  | nil => simp
  | cons r rs ih =>
      cases i with
      | zero => simp
      | succ i =>
          simp only [List.map_cons, List.getD_cons_succ]
          exact ih i

theorem getLast?_eq_getLastD (l : List Nat) (h : l ≠ []) :
    l.getLast? = some (l.getLastD 0) := by
  induction l with
  | nil => exact absurd rfl h
  | cons a as ih =>
      cases as with
      | nil => rfl
      | cons b bs =>
          rw [List.getLast?_cons_cons]
          rw [ih (by simp)]
          rfl

theorem segContent_eq (s : AppState) (rSeg : Nat)
    (hS : s.segmented_image = some rSeg) : segContent s = heapGet s rSeg := by
  unfold segContent
  rw [hS]

theorem srcContent_eq (s : AppState) (rImg : Nat)
    (hI : s.image_rgb = some rImg) : srcContent s = heapGet s rImg := by
  unfold srcContent
  rw [hI]

/-- Unpacked form of the invariant for a loaded state. -/
theorem INV_loaded (s : AppState) (hInv : INV s) (hL : s.imageLoaded = true) :
    ∃ rImg rSeg, s.image_rgb = some rImg ∧ s.segmented_image = some rSeg ∧
      rImg ≠ rSeg ∧ rImg < s.heap.length ∧ rSeg < s.heap.length ∧
      s.history ≠ [] ∧
      (∀ r ∈ s.history, r < s.heap.length ∧ r ≠ rImg ∧
        dimsEq (heapGet s r) (heapGet s rImg)) ∧
      Rect (heapGet s rImg) ∧
      dimsEq (heapGet s rSeg) (heapGet s rImg) ∧
      (∀ rTop, s.history = [rTop] →
        rTop = rSeg ∨ (heapGet s rSeg = heapGet s rImg ∧
          heapGet s rTop = heapGet s rImg)) := by
  obtain ⟨hf1, hf2, hf3, hmain⟩ := hInv
  obtain ⟨rImg, hI⟩ : ∃ r, s.image_rgb = some r := by
    rcases hx : s.image_rgb with _ | r
    · rw [hx] at hf1; rw [hL] at hf1; simp at hf1
    · exact ⟨r, rfl⟩
  obtain ⟨rSeg, hS⟩ : ∃ r, s.segmented_image = some r := by
    rcases hx : s.segmented_image with _ | r
    · rw [hx] at hf2; rw [hL] at hf2; simp at hf2
    · exact ⟨r, rfl⟩
  exact ⟨rImg, rSeg, hI, hS, hmain rImg rSeg hI hS⟩

theorem onClick_erase (x y : Nat) (s : AppState) (rImg : Nat)
    (hI : s.image_rgb = some rImg) (hm : s.remove_mask_mode = true) :
    onClick x y s = .ok (removeMask x y s) := by
  unfold onClick
  rw [hI]
  dsimp only
  rw [if_pos hm]

theorem onClick_classify (x y : Nat) (s : AppState) (rImg : Nat)
    (hI : s.image_rgb = some rImg) (hm : s.remove_mask_mode = false) :
    onClick x y s = .ok (segmentImage x y
      { s with selected_color := some (pix (heapGet s rImg) y x) }) := by
  unfold onClick
  rw [hI]
  dsimp only
  rw [if_neg (by rw [hm]; simp)]

/-- Contents view of `remove_mask`. -/
theorem removeMask_state (x y : Nat) (s : AppState) (rImg rSeg : Nat)
    (hI : s.image_rgb = some rImg) (hS : s.segmented_image = some rSeg)
    (hne : rImg ≠ rSeg) (hSeg : rSeg < s.heap.length) :
    segContent (removeMask x y s) = eraseImg (heapGet s rImg) x y (heapGet s rSeg) ∧
    srcContent (removeMask x y s) = heapGet s rImg ∧
    (removeMask x y s).history = s.history := by
  obtain ⟨heap, irgb, load, seg, sel, hist, mode⟩ := s
  dsimp only at hI hS hSeg ⊢
  subst hI; subst hS
  unfold removeMask segContent srcContent heapGet
  dsimp only
  refine ⟨?_, ?_, rfl⟩
  · exact getD_set_self _ _ _ _ hSeg
  · exact getD_set_ne _ _ _ _ _ (Ne.symm hne)

/-- Contents view of `reset_white_regions`. -/
theorem reset_state (s : AppState) (rImg rSeg : Nat)
    (hI : s.image_rgb = some rImg) (hS : s.segmented_image = some rSeg)
    (hne : rImg ≠ rSeg) (hSeg : rSeg < s.heap.length) :
    segContent (resetWhiteRegions s) = resetImg (heapGet s rImg) (heapGet s rSeg) ∧
    srcContent (resetWhiteRegions s) = heapGet s rImg ∧
    (resetWhiteRegions s).history = s.history ∧
    (resetWhiteRegions s).segmented_image = s.segmented_image ∧
    (resetWhiteRegions s).image_rgb = s.image_rgb ∧
    (resetWhiteRegions s).heap.length = s.heap.length := by
  obtain ⟨heap, irgb, load, seg, sel, hist, mode⟩ := s
  dsimp only at hI hS hSeg ⊢
  subst hI; subst hS
  unfold resetWhiteRegions segContent srcContent heapGet
  dsimp only
  refine ⟨?_, ?_, rfl, rfl, rfl, by simp⟩
  · exact getD_set_self _ _ _ _ hSeg
  · exact getD_set_ne _ _ _ _ _ (Ne.symm hne)

/-- Contents view of `segment_image` on a loaded state with a selected
color: the history gets one new snapshot holding the pre-classification
mask, and the mask array is overwritten with the classified window. -/
theorem segmentImage_state (x y : Nat) (s : AppState) (rImg rSeg : Nat) (c : Color)
    (hI : s.image_rgb = some rImg) (hS : s.segmented_image = some rSeg)
    (hc : s.selected_color = some c) (hL : s.imageLoaded = true)
    (hne : rImg ≠ rSeg) (hImg : rImg < s.heap.length) (hSeg : rSeg < s.heap.length) :
    segContent (segmentImage x y s) = classifyImg (heapGet s rImg) c x y (heapGet s rSeg) ∧
    srcContent (segmentImage x y s) = heapGet s rImg ∧
    (segmentImage x y s).history = s.history ++ [s.heap.length] ∧
    topContent (segmentImage x y s) = heapGet s rSeg := by
  obtain ⟨heap, irgb, load, seg, sel, hist, mode⟩ := s
  dsimp only at hI hS hc hL hImg hSeg ⊢
  subst hI; subst hS; subst hc; subst hL
  unfold segmentImage segContent srcContent topContent heapGet
  dsimp only
  rw [if_pos rfl]
  dsimp only
  refine ⟨?_, ?_, rfl, ?_⟩
  · exact getD_set_self _ _ _ _ (by rw [List.length_append]; simp; omega)
  · rw [getD_set_ne _ _ _ _ _ (Ne.symm hne), getD_append_lt _ _ _ _ hImg]
  · rw [getLast?_concat_eq]
    show ((heap ++ [heap.getD rSeg []]).set rSeg _).getD heap.length [] = heap.getD rSeg []
    rw [getD_set_ne _ _ _ _ _ (by omega)]
    have h0 := getD_append_add heap [heap.getD rSeg []] 0 ([] : Img)
    rw [Nat.add_zero] at h0
    rw [h0]
    rfl

/-! ## Claim-level helpers -/

/-- A one-row raster is rectangular. -/
theorem rect_one_row (r : List Color) : Rect [r] := by
  intro i hi
  have h0 : i = 0 := by simpa using hi
  subst h0
  rfl

theorem undoN_succ_concat (k : Nat) : undoN (k + 1) = undoN k ++ [Ev.undoEv] := by
  unfold undoN
  induction k with
  | zero => rfl
  | succ k ih =>
      calc List.replicate (k + 1 + 1) Ev.undoEv
          = Ev.undoEv :: List.replicate (k + 1) Ev.undoEv := rfl
        _ = Ev.undoEv :: (List.replicate k Ev.undoEv ++ [Ev.undoEv]) := by rw [ih]
        _ = List.replicate (k + 1) Ev.undoEv ++ [Ev.undoEv] := rfl

/-- State after loading `img`, classify-clicking at all points of `ps`, and
undoing `k ≤ ps.length` times. -/
theorem run_clicks_undos (img : Img) (ps : List (Nat × Nat)) (k : Nat)
    (hk : k ≤ ps.length) :
    runFrom (openImage img initState) (clickEvs ps ++ undoN k)
      = .ok (phaseU img (applyClicks img ps img) (snaps img ps img)
        (selAfter none img ps) k) := by
  rw [openImage_init, runFrom_append, runFrom_clicks]
  show runFrom (phaseU img (applyClicks img ps img) (snaps img ps img)
    (selAfter none img ps) 0) (undoN k) = _
  rw [runFrom_undos _ _ _ _ 0 k (by rw [snaps_length]; omega)]
  rw [Nat.zero_add]

theorem undo_top_eq_seg (s : AppState) (hInv : INV s) (hL : s.imageLoaded = true) :
    topContent (undo s) = segContent (undo s) := by
  obtain ⟨rImg, rSeg, hI, hS, hne, hImg, hSeg, hhist, hmem, hrect, hsd, hone⟩ :=
    INV_loaded s hInv hL
  unfold undo
  by_cases h : 1 < s.history.length
  · rw [if_pos h]
    have hdl : s.history.dropLast ≠ [] := by
      have hlen := List.length_dropLast s.history
      intro hc
      rw [hc] at hlen
      simp at hlen
      omega
    unfold topContent segContent
    dsimp only
    rw [getLast?_eq_getLastD _ hdl]
  · rw [if_neg h]
    have hlen1 : s.history.length = 1 := by
      have hpos : 0 < s.history.length := List.length_pos.mpr hhist
      omega
    obtain ⟨rTop, hTop⟩ := List.length_eq_one.mp hlen1
    rcases hone rTop hTop with h1 | ⟨h2a, h2b⟩
    · unfold topContent segContent
      rw [hTop, hS, h1]
      rfl
    · unfold topContent segContent
      rw [hTop, hS]
      show heapGet s rTop = heapGet s rSeg
      rw [h2b, h2a]

/-! ## The claims -/

/-- **C1, counterexample.**  On a 1×1 black image, after N = 2
classification clicks at (0,0) the WorkingMask is all green; the claim
says N−1 = 1 undo restores the state immediately after the first
classification (all green), but the code leaves the all-black initial
state instead. -/
theorem C1_counterexample :
    segAfter [Ev.openImg [[(0, 0, 0)]], Ev.click 0 0] = some [[(0, 255, 0)]] ∧
    segAfter [Ev.openImg [[(0, 0, 0)]], Ev.click 0 0, Ev.click 0 0, Ev.undoEv]
      = some [[(0, 0, 0)]] ∧
    ([[(0, 255, 0)]] : Img) ≠ [[(0, 0, 0)]] :=
  ⟨rfl, rfl, by decide⟩

/-- **C1, amended.**  After loading any image and performing `N = ps.length
≥ 1` classification clicks, the `k`-th undo (1 ≤ k ≤ N) sets the
WorkingMask to the state after classification `N−1−k` (Nat subtraction, so
the initial state for `k ≥ N−1`): each undo skips one state, so N−1 undos
already reach the all-Unmarked initial state for N ≥ 2, the N-th undo
keeps the initial state, and an (N+1)-th undo is a no-op on the whole
state. -/
theorem C1_amended (img : Img) (ps : List (Nat × Nat)) (k : Nat)
    (hk1 : 1 ≤ k) (hkN : k ≤ ps.length) :
    segAfter (Ev.openImg img :: (clickEvs ps ++ undoN k))
      = some ((masksList img ps).getD (ps.length - 1 - k) img) ∧
    runEvs (Ev.openImg img :: (clickEvs ps ++ undoN (ps.length + 1)))
      = runEvs (Ev.openImg img :: (clickEvs ps ++ undoN ps.length)) := by
  constructor
  · show (match runFrom (openImage img initState) (clickEvs ps ++ undoN k) with
      | .ok s => (s.segmented_image).map (fun r => heapGet s r)
      | .error _ => none) = _
    rw [run_clicks_undos img ps k hkN]
    show some (segContent (phaseU img (applyClicks img ps img) (snaps img ps img)
      (selAfter none img ps) k)) = _
    rw [segContent_phaseU_eq img ps _ k hk1 hkN]
  · show runFrom (openImage img initState) (clickEvs ps ++ undoN (ps.length + 1))
      = runFrom (openImage img initState) (clickEvs ps ++ undoN ps.length)
    rw [undoN_succ_concat, ← List.append_assoc, runFrom_append,
      run_clicks_undos img ps ps.length (le_refl _)]
    show runFrom (phaseU img (applyClicks img ps img) (snaps img ps img)
      (selAfter none img ps) ps.length) [Ev.undoEv] = _
    rw [← snaps_length img ps img]
    show (match step (phaseU img (applyClicks img ps img) (snaps img ps img)
        (selAfter none img ps) (snaps img ps img).length) Ev.undoEv with
      | .ok s1 => runFrom s1 []
      | .error msg => .error msg) = _
    rw [step_undo_noop]
    rfl

/-- **C1, witness.** -/
theorem C1_amended_witness :
    segAfter (Ev.openImg [[(0, 0, 0)]] :: (clickEvs [(0, 0)] ++ undoN 1))
      = some ((masksList [[(0, 0, 0)]] [(0, 0)]).getD 0 [[(0, 0, 0)]]) ∧
    runEvs (Ev.openImg [[(0, 0, 0)]] :: (clickEvs [(0, 0)] ++ undoN 2))
      = runEvs (Ev.openImg [[(0, 0, 0)]] :: (clickEvs [(0, 0)] ++ undoN 1)) := by
  have h := C1_amended [[(0, 0, 0)]] [(0, 0)] 1 (by decide) (by decide)
  exact ⟨h.1, h.2⟩

/-- The history top after a run, when the run succeeds. -/
def topAfter (evs : List Ev) : Option Img :=
  match runEvs evs with
  | .ok s => some (topContent s)
  | .error _ => none

/-- **C2, counterexample.**  Right after one classification click the top
of the history stack holds the pre-classification mask (all black), while
the WorkingMask is all green, so the top does not mirror the WorkingMask
after `applyClassification`. -/
theorem C2_counterexample :
    topAfter [Ev.openImg [[(0, 0, 0)]], Ev.click 0 0] = some [[(0, 0, 0)]] ∧
    segAfter [Ev.openImg [[(0, 0, 0)]], Ev.click 0 0] = some [[(0, 255, 0)]] ∧
    ([[(0, 0, 0)]] : Img) ≠ [[(0, 255, 0)]] :=
  ⟨rfl, rfl, by decide⟩

/-- **C2, amended.**  In every reachable loaded state the history is
non-empty and after an `undo` the top equals the WorkingMask; but
immediately after `applyClassification` the top equals the WorkingMask as
it was just *before* that classification, not after it. -/
theorem C2_amended (s : AppState) (hR : Reachable s) :
    (s.imageLoaded = true → s.history ≠ []) ∧
    (s.imageLoaded = true → topContent (undo s) = segContent (undo s)) ∧
    (∀ x y s1, s.imageLoaded = true → s.remove_mask_mode = false →
      onClick x y s = .ok s1 → topContent s1 = segContent s) := by
  have hInv := INV_reachable s hR
  refine ⟨?_, ?_, ?_⟩
  · intro hL
    obtain ⟨rImg, rSeg, hI, hS, hne, hImg, hSeg, hhist, _⟩ := INV_loaded s hInv hL
    exact hhist
  · intro hL
    exact undo_top_eq_seg s hInv hL
  · intro x y s1 hL hm h
    obtain ⟨rImg, rSeg, hI, hS, hne, hImg, hSeg, hhist, hmem, hrect, hsd, hone⟩ :=
      INV_loaded s hInv hL
    rw [onClick_classify x y s rImg hI hm] at h
    injection h with h
    rw [← h]
    have hst := segmentImage_state x y
      { s with selected_color := some (pix (heapGet s rImg) y x) }
      rImg rSeg (pix (heapGet s rImg) y x) hI hS rfl hL hne hImg hSeg
    rw [hst.2.2.2, segContent_eq s rSeg hS]
    rfl

/-- **C2, witness.** -/
theorem C2_amended_witness :
    ((openImage [[(0, 0, 0)]] initState).imageLoaded = true →
      (openImage [[(0, 0, 0)]] initState).history ≠ []) ∧
    topContent (undo (openImage [[(0, 0, 0)]] initState))
      = segContent (undo (openImage [[(0, 0, 0)]] initState)) := by
  have h := C2_amended (openImage [[(0, 0, 0)]] initState)
    ⟨[Ev.openImg [[(0, 0, 0)]]],
      by intro i hi; simp at hi; subst hi; exact rect_one_row _, rfl⟩
  exact ⟨h.1, h.2.1 rfl⟩

/-- **C3, code bug.**  The code subtracts `uint8` arrays, so channel
differences wrap modulo 256: with reference color (255,255,255) and pixel
(0,0,0) the true squared Euclidean distance is 195075 (distance ≈ 441.7 ≥
300), yet the code computes wrapped differences (1,1,1) and classifies the
pixel as `Marked`.  Loading the 1×2 image [white, black] and clicking the
white pixel turns the black pixel green. -/
theorem C3_code_bug :
    codeMatch whiteC (0, 0, 0) = true ∧
    specMatch whiteC (0, 0, 0) = false ∧
    euclidDistSq whiteC (0, 0, 0) = 195075 ∧
    segAfter [Ev.openImg [[(255, 255, 255), (0, 0, 0)]], Ev.click 0 0]
      = some [[greenC, greenC]] :=
  ⟨rfl, rfl, rfl, rfl⟩

/-- **C4, code bug.**  `__init__` never assigns `self.image_rgb`, so the
`if self.image_rgb is None` guard in `on_click` itself raises
`AttributeError` before any image is loaded, in both classify and erase
mode; `reset_white_regions`, `undo` and `save_green_mask` do recover as
no-ops. -/
theorem C4_code_bug :
    runEvs [Ev.click 0 0] = .error "AttributeError" ∧
    runEvs [Ev.toggle, Ev.click 0 0] = .error "AttributeError" ∧
    runEvs [Ev.next] = .ok initState ∧
    runEvs [Ev.undoEv] = .ok initState ∧
    saveGreen initState = none :=
  ⟨rfl, rfl, rfl, rfl, rfl⟩

/-- **C5.**  The export of `save_green_mask`: the grayscale output has the
same dimensions as the mask, and its value is 255 exactly at pixels whose
value is the `Marked` marker color `[0,255,0]`, 0 at every other pixel. -/
theorem C5_export (mask : Img) :
    (saveGreenMask mask).length = mask.length ∧
    (∀ i, ((saveGreenMask mask).getD i []).length = (mask.getD i []).length) ∧
    (∀ i j, pixG (saveGreenMask mask) i j = if pix mask i j = greenC then 255 else 0) :=
  ⟨saveGreenMask_length mask, saveGreenMask_row_length mask,
    fun i j => pixG_saveGreenMask mask i j⟩

/-- The array at heap slot `r` after a successful run. -/
def heapAtRun (evs : List Ev) (r : Nat) : Option Img :=
  match runEvs evs with
  | .ok s => some (heapGet s r)
  | .error _ => none

/-- The history reference list after a successful run. -/
def histRun (evs : List Ev) : Option (List Nat) :=
  match runEvs evs with
  | .ok s => some s.history
  | .error _ => none

/-- **C6, code bug.**  After load, click, undo, the WorkingMask aliases the
initial history snapshot (heap slot 2, still on the stack with content all
black); the next classification click then mutates that snapshot in place:
slot 2 stays at the bottom of the stack but its content changes to all
green, so history snapshots are not independent deep copies. -/
theorem C6_code_bug :
    histRun [Ev.openImg [[(0, 0, 0)]], Ev.click 0 0, Ev.undoEv] = some [2] ∧
    heapAtRun [Ev.openImg [[(0, 0, 0)]], Ev.click 0 0, Ev.undoEv] 2
      = some [[(0, 0, 0)]] ∧
    histRun [Ev.openImg [[(0, 0, 0)]], Ev.click 0 0, Ev.undoEv, Ev.click 0 0]
      = some [2, 4] ∧
    heapAtRun [Ev.openImg [[(0, 0, 0)]], Ev.click 0 0, Ev.undoEv, Ev.click 0 0] 2
      = some [[(0, 255, 0)]] ∧
    ([[(0, 0, 0)]] : Img) ≠ [[(0, 255, 0)]] :=
  ⟨rfl, rfl, rfl, rfl, by decide⟩

/-! ## Window lemmas for the locality claims -/

theorem window_in_bounds (src seg : Img) (hdims : dimsEq seg src) (hrect : Rect src)
    (xs xe ys ye : Nat) (hxe : xe ≤ widthOf src) (hye : ye ≤ src.length) :
    ∀ i j, inWindow xs xe ys ye i j = true →
      i < seg.length ∧ j < (seg.getD i []).length := by
  intro i j hw
  simp only [inWindow, Bool.and_eq_true, decide_eq_true_eq] at hw
  have hi : i < src.length := by omega
  refine ⟨by rw [hdims.1]; exact hi, ?_⟩
  rw [hdims.2 i, hrect i hi]
  omega

theorem pix_window (seg : Img) (g : Nat → Nat → Color) (xs xe ys ye : Nat)
    (hin : ∀ i j, inWindow xs xe ys ye i j = true →
      i < seg.length ∧ j < (seg.getD i []).length) (i j : Nat) :
    pix (mapPixels (fun a b p => if inWindow xs xe ys ye a b then g a b else p) seg) i j
      = if inWindow xs xe ys ye i j = true then g i j else pix seg i j := by
  rw [pix_mapPixels]
  by_cases hw : inWindow xs xe ys ye i j = true
  · rw [if_pos (hin i j hw), if_pos hw]
  · rw [if_neg hw]
    by_cases hcond : i < seg.length ∧ j < (seg.getD i []).length
    · rw [if_pos hcond]
    · rw [if_neg hcond, pix_out_of_range seg i j hcond]

/-- Pointwise description of `remove_mask`'s raster effect. -/
theorem pix_eraseImg (src seg : Img) (hdims : dimsEq seg src) (hrect : Rect src)
    (x y i j : Nat) :
    pix (eraseImg src x y seg) i j
      = if inWindow (x - 10) (min (x + 10) (widthOf src)) (y - 10)
          (min (y + 10) (heightOf src)) i j = true
        then pix src i j else pix seg i j := by
  unfold eraseImg
  exact pix_window seg _ _ _ _ _
    (window_in_bounds src seg hdims hrect _ _ _ _
      (Nat.min_le_right _ _) (Nat.min_le_right _ _)) i j

/-- Pointwise description of the classified-window overwrite. -/
theorem pix_classifyImg (src seg : Img) (hdims : dimsEq seg src) (hrect : Rect src)
    (c : Color) (x y i j : Nat) :
    pix (classifyImg src c x y seg) i j
      = if inWindow (x - 25) (min (x + 25) (widthOf src)) (y - 25)
          (min (y + 25) (heightOf src)) i j = true
        then (if codeMatch c (pix src i j) then greenC else whiteC)
        else pix seg i j := by
  unfold classifyImg
  exact pix_window seg _ _ _ _ _
    (window_in_bounds src seg hdims hrect _ _ _ _
      (Nat.min_le_right _ _) (Nat.min_le_right _ _)) i j

/-- **C7.**  For a click in erase mode on a loaded state, every pixel of
the clipped 20-window takes the corresponding SourceImage value regardless
of prior state, every pixel outside the window is unchanged, and no
history snapshot is pushed. -/
theorem C7_erase (s : AppState) (hR : Reachable s) (x y : Nat)
    (hL : s.imageLoaded = true) (hm : s.remove_mask_mode = true)
    (s1 : AppState) (h : onClick x y s = .ok s1) :
    (∀ i j, inWindow (x - 10) (min (x + 10) (widthOf (srcContent s))) (y - 10)
        (min (y + 10) (heightOf (srcContent s))) i j = true →
      pix (segContent s1) i j = pix (srcContent s) i j) ∧
    (∀ i j, inWindow (x - 10) (min (x + 10) (widthOf (srcContent s))) (y - 10)
        (min (y + 10) (heightOf (srcContent s))) i j = false →
      pix (segContent s1) i j = pix (segContent s) i j) ∧
    s1.history = s.history := by
  have hInv := INV_reachable s hR
  obtain ⟨rImg, rSeg, hI, hS, hne, hImg, hSeg, hhist, hmem, hrect, hsd, hone⟩ :=
    INV_loaded s hInv hL
  rw [onClick_erase x y s rImg hI hm] at h
  injection h with h
  subst h
  have hst := removeMask_state x y s rImg rSeg hI hS hne hSeg
  have hsrc : srcContent s = heapGet s rImg := srcContent_eq s rImg hI
  have hsegc : segContent s = heapGet s rSeg := segContent_eq s rSeg hS
  refine ⟨?_, ?_, hst.2.2⟩
  · intro i j hw
    rw [hst.1, hsrc, pix_eraseImg (heapGet s rImg) (heapGet s rSeg) hsd hrect]
    rw [if_pos (by rw [hsrc] at hw; exact hw)]
  · intro i j hw
    rw [hst.1, hsegc, pix_eraseImg (heapGet s rImg) (heapGet s rSeg) hsd hrect]
    rw [if_neg (by rw [hsrc] at hw; rw [hw]; simp)]

/-- **C7, witness.** -/
theorem C7_witness :
    pix (segContent (removeMask 0 0
      { openImage [[(255, 255, 255), (0, 0, 0)]] initState with remove_mask_mode := true })) 0 0
      = pix (srcContent
      { openImage [[(255, 255, 255), (0, 0, 0)]] initState with remove_mask_mode := true }) 0 0 ∧
    (removeMask 0 0
      { openImage [[(255, 255, 255), (0, 0, 0)]] initState with remove_mask_mode := true }).history
      = ({ openImage [[(255, 255, 255), (0, 0, 0)]] initState with remove_mask_mode := true }
        : AppState).history := by
  have h := C7_erase
    { openImage [[(255, 255, 255), (0, 0, 0)]] initState with remove_mask_mode := true }
    ⟨[Ev.openImg [[(255, 255, 255), (0, 0, 0)]], Ev.toggle],
      by intro i hi; simp at hi; subst hi; exact rect_one_row _, rfl⟩
    0 0 rfl rfl _ rfl
  exact ⟨h.1 0 0 rfl, h.2.2⟩

/-- **C8.**  For a classify-mode click on a loaded state, every pixel
strictly outside the clipped 50-window is bit-for-bit unchanged in the
WorkingMask, and the clipped window lies entirely within the image
bounds. -/
theorem C8_locality (s : AppState) (hR : Reachable s) (x y : Nat)
    (hL : s.imageLoaded = true) (hm : s.remove_mask_mode = false)
    (s1 : AppState) (h : onClick x y s = .ok s1) :
    (∀ i j, inWindow (x - 25) (min (x + 25) (widthOf (srcContent s))) (y - 25)
        (min (y + 25) (heightOf (srcContent s))) i j = false →
      pix (segContent s1) i j = pix (segContent s) i j) ∧
    (∀ i j, inWindow (x - 25) (min (x + 25) (widthOf (srcContent s))) (y - 25)
        (min (y + 25) (heightOf (srcContent s))) i j = true →
      i < heightOf (srcContent s) ∧ j < widthOf (srcContent s)) := by
  have hInv := INV_reachable s hR
  obtain ⟨rImg, rSeg, hI, hS, hne, hImg, hSeg, hhist, hmem, hrect, hsd, hone⟩ :=
    INV_loaded s hInv hL
  rw [onClick_classify x y s rImg hI hm] at h
  injection h with h
  subst h
  have hst := segmentImage_state x y
    { s with selected_color := some (pix (heapGet s rImg) y x) }
    rImg rSeg (pix (heapGet s rImg) y x) hI hS rfl hL hne hImg hSeg
  have hsrc : srcContent s = heapGet s rImg := srcContent_eq s rImg hI
  have hsegc : segContent s = heapGet s rSeg := segContent_eq s rSeg hS
  refine ⟨?_, ?_⟩
  · intro i j hw
    rw [hst.1]
    show pix (classifyImg (heapGet s rImg) (pix (heapGet s rImg) y x) x y
      (heapGet s rSeg)) i j = pix (segContent s) i j
    rw [hsegc, pix_classifyImg (heapGet s rImg) (heapGet s rSeg) hsd hrect]
    rw [if_neg (by rw [hsrc] at hw; rw [hw]; simp)]
  · intro i j hw
    rw [hsrc] at hw
    rw [hsrc]
    simp only [inWindow, Bool.and_eq_true, decide_eq_true_eq] at hw
    exact ⟨by omega, by omega⟩

/-- **C8, witness.** -/
theorem C8_witness :
    pix (segContent (segmentImage 0 0
      { openImage [[(0, 0, 0)]] initState with
        selected_color := some (pix (heapGet (openImage [[(0, 0, 0)]] initState) 0) 0 0) })) 5 5
      = pix (segContent (openImage [[(0, 0, 0)]] initState)) 5 5 ∧
    (0 < heightOf (srcContent (openImage [[(0, 0, 0)]] initState)) ∧
      0 < widthOf (srcContent (openImage [[(0, 0, 0)]] initState))) := by
  have h := C8_locality (openImage [[(0, 0, 0)]] initState)
    ⟨[Ev.openImg [[(0, 0, 0)]]],
      by intro i hi; simp at hi; subst hi; exact rect_one_row _, rfl⟩
    0 0 rfl rfl _ rfl
  exact ⟨h.1 5 5 rfl, h.2 0 0 rfl⟩

/-- **C9.**  `reset_white_regions` is idempotent at the WorkingMask level,
leaves `Marked` (green) pixels untouched, and pushes no history
snapshot. -/
theorem C9_reset (s : AppState) (hR : Reachable s) (hL : s.imageLoaded = true) :
    segContent (resetWhiteRegions (resetWhiteRegions s)) = segContent (resetWhiteRegions s) ∧
    (∀ i j, pix (segContent s) i j = greenC →
      pix (segContent (resetWhiteRegions s)) i j = greenC) ∧
    (resetWhiteRegions s).history = s.history := by
  have hInv := INV_reachable s hR
  obtain ⟨rImg, rSeg, hI, hS, hne, hImg, hSeg, hhist, hmem, hrect, hsd, hone⟩ :=
    INV_loaded s hInv hL
  have h1 := reset_state s rImg rSeg hI hS hne hSeg
  have hI2 : (resetWhiteRegions s).image_rgb = some rImg := by
    rw [h1.2.2.2.2.1]; exact hI
  have hS2 : (resetWhiteRegions s).segmented_image = some rSeg := by
    rw [h1.2.2.2.1]; exact hS
  have hSeg2 : rSeg < (resetWhiteRegions s).heap.length := by
    rw [h1.2.2.2.2.2]; exact hSeg
  have h2 := reset_state (resetWhiteRegions s) rImg rSeg hI2 hS2 hne hSeg2
  have hGI : heapGet (resetWhiteRegions s) rImg = heapGet s rImg := by
    rw [← srcContent_eq (resetWhiteRegions s) rImg hI2, h1.2.1]
  have hGS : heapGet (resetWhiteRegions s) rSeg
      = resetImg (heapGet s rImg) (heapGet s rSeg) := by
    rw [← segContent_eq (resetWhiteRegions s) rSeg hS2, h1.1]
  refine ⟨?_, ?_, h1.2.2.1⟩
  · rw [h2.1, hGI, hGS, resetImg_idem, h1.1]
  · intro i j hg
    rw [segContent_eq s rSeg hS] at hg
    rw [h1.1]
    unfold resetImg
    rw [pix_mapPixels]
    by_cases hcond : i < (heapGet s rSeg).length ∧ j < ((heapGet s rSeg).getD i []).length
    · rw [if_pos hcond, hg, if_neg (by decide)]
    · rw [pix_out_of_range _ i j hcond] at hg
      exact absurd hg (by decide)

/-- **C9, witness.** -/
theorem C9_witness :
    segContent (resetWhiteRegions (resetWhiteRegions (openImage [[(0, 0, 0)]] initState)))
      = segContent (resetWhiteRegions (openImage [[(0, 0, 0)]] initState)) ∧
    (resetWhiteRegions (openImage [[(0, 0, 0)]] initState)).history
      = (openImage [[(0, 0, 0)]] initState).history := by
  have h := C9_reset (openImage [[(0, 0, 0)]] initState)
    ⟨[Ev.openImg [[(0, 0, 0)]]],
      by intro i hi; simp at hi; subst hi; exact rect_one_row _, rfl⟩
    rfl
  exact ⟨h.1, h.2.2⟩

/-- **C10.**  Pixel state is encoded purely by RGB value: in any reachable
loaded state, a WorkingMask pixel whose value is exactly `[0,255,0]`
(whatever its provenance, including a source pixel that is naturally pure
green) is exported as 255 by `save_green_mask`, and a pixel whose value is
exactly `[255,255,255]` (including a naturally pure-white source pixel) is
treated as Cleared-to-background by `reset_white_regions`, i.e. replaced
by the corresponding SourceImage pixel. -/
theorem C10_color_encoding (s : AppState) (hR : Reachable s)
    (hL : s.imageLoaded = true) (i j : Nat) :
    (pix (segContent s) i j = greenC →
      ∃ g, saveGreen s = some g ∧ pixG g i j = 255) ∧
    (i < (segContent s).length → j < ((segContent s).getD i []).length →
      pix (segContent s) i j = whiteC →
      pix (segContent (resetWhiteRegions s)) i j = pix (srcContent s) i j) := by
  have hInv := INV_reachable s hR
  obtain ⟨rImg, rSeg, hI, hS, hne, hImg, hSeg, hhist, hmem, hrect, hsd, hone⟩ :=
    INV_loaded s hInv hL
  constructor
  · intro hg
    refine ⟨saveGreenMask (heapGet s rSeg), ?_, ?_⟩
    · unfold saveGreen
      rw [hS]
    · rw [pixG_saveGreenMask, ← segContent_eq s rSeg hS, hg, if_pos rfl]
  · intro hi hj hw
    have h1 := reset_state s rImg rSeg hI hS hne hSeg
    rw [segContent_eq s rSeg hS] at hi hj hw
    rw [h1.1]
    unfold resetImg
    rw [pix_mapPixels, if_pos ⟨hi, hj⟩, if_pos hw, srcContent_eq s rImg hI]

/-- **C10, witness.** -/
theorem C10_witness :
    (∃ g, saveGreen (openImage [[(0, 255, 0)]] initState) = some g ∧ pixG g 0 0 = 255) := by
  have h := C10_color_encoding (openImage [[(0, 255, 0)]] initState)
    ⟨[Ev.openImg [[(0, 255, 0)]]],
      by intro i hi; simp at hi; subst hi; exact rect_one_row _, rfl⟩
    rfl 0 0
  exact h.1 rfl

end AutoSeg
